import Mathlib

/-!
Verification of the compo-kit scaffolding CLI core: the template renderer
(`src/cli/utils/renderTemplate.ts`) and the directory reconciler helpers
(`src/cli/index.ts`).  The filesystem is embedded as a finite tree of
named nodes; paths are lists of components (the code normalizes to
absolute paths with `path.resolve` before recursing, so a path is
faithfully a component list from the root).
-/

namespace CompoKit

/-- A filesystem node: a regular file with its byte contents, or a
directory with its (name, node) children in directory order. -/
inductive Entry : Type where
  | file (content : List Nat)
  | dir (children : List (String × Entry))

/-- First child with the given name (directory entries are looked up by
exact name match, first occurrence wins). -/
def findEntry : List (String × Entry) → String → Option Entry
  | [], _ => none
  | (n, e) :: rest, name => if n = name then some e else findEntry rest name

/-- Replace the first child with the given name. -/
def setFirst : List (String × Entry) → String → Entry → List (String × Entry)
  | [], _, _ => []
  | (n, e) :: rest, name, x =>
    if n = name then (n, x) :: rest else (n, e) :: setFirst rest name x

/-- Remove the first child with the given name. -/
def removeFirst : List (String × Entry) → String → List (String × Entry)
  | [], _ => []
  | (n, e) :: rest, name =>
    if n = name then rest else (n, e) :: removeFirst rest name

/-- Resolve a path inside a node: `none` when some component is missing
or a non-final component is a regular file. -/
def Entry.lookup : Entry → List String → Option Entry
  | e, [] => some e
  | .file _, _ :: _ => none
  | .dir ch, n :: rest =>
    match findEntry ch n with
    | none => none
    | some e => Entry.lookup e rest

/-- Node.js `fs.mkdirSync(p, { recursive: true })`: create the directory
and every missing ancestor; an already existing directory is not an
error, but a regular file anywhere along the path is (`none`). -/
def Entry.mkdirp : Entry → List String → Option Entry
  | e, [] =>
    match e with
    | .dir ch => some (.dir ch)
    | .file _ => none
  | e, n :: rest =>
    match e with
    | .file _ => none
    | .dir ch =>
      match findEntry ch n with
      | some e1 => (Entry.mkdirp e1 rest).map (fun e' => Entry.dir (setFirst ch n e'))
      | none => (Entry.mkdirp (Entry.dir []) rest).map (fun e' => Entry.dir (ch ++ [(n, e')]))

/-- Errors surfaced by the filesystem model: `enoent` is `statSync` on a
missing path, `eexist` is `mkdirSync` colliding with a regular file,
`enotdir` is `readdirSync` on a non-directory, and `outOfFuel` is the
model's recursion-depth bound (the source recursion has no such bound;
every theorem quantifies over or instantiates sufficient fuel). -/
inductive FsErr : Type where
  | enoent
  | eexist
  | enotdir
  | outOfFuel
deriving DecidableEq

/-- The `for (const file of fs.readdirSync(src))` loop of `renderTemplate`:
render each listed child in directory order with the recursive call
`step`, stopping at the first raised error (an exception aborts the
whole loop and propagates). -/
def renderChildren (step : List String → List String → Entry → Entry × Option FsErr) :
    List String → List String → List String → Entry → Entry × Option FsErr
  | _, _, [], fs => (fs, none)
  | src, dest, name :: rest, fs =>
    match step (src ++ [name]) (dest ++ [name]) fs with
    | (fs1, none) => renderChildren step src dest rest fs1
    | (fs1, some e) => (fs1, some e)

/-- Shallow embedding of `renderTemplate(src, dest)` from
`src/cli/utils/renderTemplate.ts`: `statSync(src)` (throws when missing);
for a directory, skip it when its base name is `node_modules`, otherwise
`mkdirSync(dest, { recursive: true })` and recurse over `readdirSync(src)`;
for a regular file the function body ends without doing anything (the
source contains no file branch).  The mutated filesystem is threaded
explicitly; a raised error is returned next to the state reached.  The
fuel bounds the recursion depth of the model only. -/
def renderTemplate : Nat → List String → List String → Entry → Entry × Option FsErr
  | 0, _, _, fs => (fs, some .outOfFuel)
  | fuel + 1, src, dest, fs =>
    match Entry.lookup fs src with
    | none => (fs, some .enoent)
    | some (.file _) => (fs, none)
    | some (.dir children) =>
      if src.getLast? = some "node_modules" then (fs, none)
      else
        match Entry.mkdirp fs dest with
        | none => (fs, some .eexist)
        | some fs1 => renderChildren (renderTemplate fuel) src dest (children.map Prod.fst) fs1

/-- Shallow embedding of `canSkipEmptying(dir)` from `src/cli/index.ts`:
`true` when the path does not exist, when `readdirSync` lists nothing, or
when it lists exactly one entry named `.git`; `readdirSync` on a regular
file throws. -/
def canSkipEmptying (fs : Entry) (dir : List String) : Except FsErr Bool :=
  match Entry.lookup fs dir with
  | none => .ok true
  | some (.file _) => .error .enotdir
  | some (.dir ch) =>
    let files := ch.map Prod.fst
    if files.length = 0 then .ok true
    else if files.length = 1 && files.head? == some ".git" then .ok true
    else .ok false

/-- Apply a partial transformation to the child list of the directory at
a path (helper for modelling single filesystem mutations). -/
def Entry.modifyChildren :
    Entry → List String → (List (String × Entry) → Option (List (String × Entry))) → Option Entry
  | .file _, _, _ => none
  | .dir ch, [], f => (f ch).map Entry.dir
  | .dir ch, n :: rest, f =>
    match findEntry ch n with
    | none => none
    | some e => (Entry.modifyChildren e rest f).map (fun e' => Entry.dir (setFirst ch n e'))

/-- Replace the node at a path (the path must resolve). -/
def Entry.setAt : Entry → List String → Entry → Option Entry
  | _, [], x => some x
  | .file _, _ :: _, _ => none
  | .dir ch, n :: rest, x =>
    match findEntry ch n with
    | none => none
    | some e => (Entry.setAt e rest x).map (fun e' => Entry.dir (setFirst ch n e'))

/-- A single destructive filesystem call made by `emptyDir`'s callbacks,
identified by the parent directory's path (relative to the traversal
root) and the entry name: `unlink` is `fs.unlinkSync`, `rmdir` is
`fs.rmdirSync`. -/
inductive FsOp : Type where
  | unlink (parent : List String) (name : String)
  | rmdir (parent : List String) (name : String)

/-- Execute one destructive call against the tree rooted at the traversal
root.  `unlinkSync` requires a regular file; `rmdirSync` requires a
directory and — per the underlying storage layer — fails unless that
directory is already empty, which is exactly why the traversal must
deliver children before their parent. -/
def applyOp (root : Entry) : FsOp → Option Entry
  | .unlink parent name =>
    Entry.modifyChildren root parent (fun ch =>
      match findEntry ch name with
      | some (.file _) => some (removeFirst ch name)
      | _ => none)
  | .rmdir parent name =>
    Entry.modifyChildren root parent (fun ch =>
      match findEntry ch name with
      | some (.dir []) => some (removeFirst ch name)
      | _ => none)

/-- Execute a sequence of destructive calls, stopping at the first
failure. -/
def applyOps : Entry → List FsOp → Option Entry
  | root, [] => some root
  | root, op :: rest =>
    match applyOp root op with
    | none => none
    | some root' => applyOps root' rest

/-- Modelled from the spec: `postOrderDirectoryTraverse` (imported by
`src/cli/index.ts` from `./utils/directoryTraverse`, a file the
repository sources do not include).  Per §4.1, the traversal visits every
entry under the directory and removes "all children of a directory
... before the directory itself": for a file child it emits the file
callback (`unlinkSync`), for a directory child it first traverses that
child's contents and only then emits the directory callback
(`rmdirSync`).  Paths are relative to the traversal root. -/
def postOrderOps : List String → List (String × Entry) → List FsOp
  | _, [] => []
  | p, (n, .file _) :: rest => FsOp.unlink p n :: postOrderOps p rest
  | p, (n, .dir ch) :: rest =>
    postOrderOps (p ++ [n]) ch ++ [FsOp.rmdir p n] ++ postOrderOps p rest

/-- Shallow embedding of `emptyDir(dir)` from `src/cli/index.ts`: return
unchanged when the path does not exist (`existsSync` guard); otherwise
run the post-order traversal with `rmdirSync` as the directory callback
and `unlinkSync` as the file callback.  All mutations act below `dir`,
so they are modelled on the subtree rooted there and written back;
listing a regular file throws (`none`). -/
def emptyDir (fs : Entry) (dir : List String) : Option Entry :=
  match Entry.lookup fs dir with
  | none => some fs
  | some (.file _) => none
  | some (.dir ch) =>
    match applyOps (.dir ch) (postOrderOps [] ch) with
    | none => none
    | some root' => Entry.setAt fs dir root'

/-- The whitespace class of JavaScript regular expressions (`\s`) and of
`String.prototype.trim`: tab, line feed, vertical tab, form feed,
carriage return, space, no-break space, the Unicode space separators,
the line and paragraph separators and the byte-order mark. -/
def jsWhitespace (c : Char) : Bool :=
  c.toNat = 0x9 || c.toNat = 0xA || c.toNat = 0xB || c.toNat = 0xC ||
  c.toNat = 0xD || c.toNat = 0x20 || c.toNat = 0xA0 || c.toNat = 0x1680 ||
  (0x2000 ≤ c.toNat && c.toNat ≤ 0x200A) ||
  c.toNat = 0x2028 || c.toNat = 0x2029 || c.toNat = 0x202F ||
  c.toNat = 0x205F || c.toNat = 0x3000 || c.toNat = 0xFEFF

/-- The character class `[a-z0-9-~]` of `toValidPackageName`'s final
regular expression: lowercase ASCII letters (97..122), ASCII digits
(48..57), the hyphen (45) and the tilde (126). -/
def pkgNameChar (c : Char) : Bool :=
  (97 ≤ c.toNat && c.toNat ≤ 122) || (48 ≤ c.toNat && c.toNat ≤ 57) ||
  c.toNat = 45 || c.toNat = 126

/-- One global `String.prototype.replace` with a one-character-class-run
pattern: each maximal run of characters satisfying `p` is replaced by the
single character `r`.  `inRun` tells whether the previous character
belonged to a run. -/
def collapseRuns (p : Char → Bool) (r : Char) : Bool → List Char → List Char
  | _, [] => []
  | inRun, c :: cs =>
    if p c then
      if inRun then collapseRuns p r true cs
      else r :: collapseRuns p r true cs
    else c :: collapseRuns p r false cs

/-- `String.prototype.trim`: remove leading and trailing whitespace. -/
def jsTrim (s : List Char) : List Char :=
  ((s.dropWhile jsWhitespace).reverse.dropWhile jsWhitespace).reverse

/-- `String.prototype.toLowerCase`, modelled on the ASCII range (the only
range the idempotence argument touches): characterwise lowercase. -/
def jsToLowerCase (s : List Char) : List Char :=
  s.map Char.toLower

/-- `.replace(/^[._]/, '')` (no global flag): drop one leading dot (46)
or underscore (95) if present. -/
def stripLeadingDotUnderscore : List Char → List Char
  | [] => []
  | c :: cs => if c.toNat = 46 || c.toNat = 95 then cs else c :: cs

/-- Shallow embedding of `toValidPackageName(projectName)` from
`src/cli/index.ts`: trim, lowercase, `.replace(/\s+/g, '-')`,
`.replace(/^[._]/, '')`, `.replace(/[^a-z0-9-~]+/g, '-')`, applied in
that order to the character list of the input. -/
def toValidPackageName (s : List Char) : List Char :=
  collapseRuns (fun c => !pkgNameChar c) '-' false
    (stripLeadingDotUnderscore
      (collapseRuns jsWhitespace '-' false
        (jsToLowerCase (jsTrim s))))

/-- Modelled from the spec: a structured manifest document, §9's tagged
variant {Scalar, Sequence, Mapping} (the repository includes no manifest
parser or merge code — the file branch of `renderTemplate` is absent). -/
inductive Jdoc : Type where
  | scalar (s : String)
  | seq (items : List Jdoc)
  | obj (fields : List (String × Jdoc))

/-- Value at a key of a mapping's field list (first occurrence). -/
def findField : List (String × Jdoc) → String → Option Jdoc
  | [], _ => none
  | (k, v) :: rest, key => if k = key then some v else findField rest key

/-- Replace the value at a key of a mapping's field list. -/
def setField : List (String × Jdoc) → String → Jdoc → List (String × Jdoc)
  | [], _, _ => []
  | (k, v) :: rest, key, x =>
    if k = key then (k, x) :: rest else (k, v) :: setField rest key x

mutual

/-- Modelled from the spec: the recursive field merge of §3, merging the
template document (second argument) into the existing destination
document (first argument): keys absent from the destination are
inserted with the template's value, two mapping values merge
recursively, and in every other collision the existing destination
value wins. -/
def deepMerge : Jdoc → Jdoc → Jdoc
  | .obj ea, .obj ta => .obj (mergeInto ea ta)
  | existing, _ => existing
termination_by _ t => sizeOf t

/-- Merge the template's fields (second argument) into the destination's
field list, key by key, per the §3 rule. -/
def mergeInto : List (String × Jdoc) → List (String × Jdoc) → List (String × Jdoc)
  | ea, [] => ea
  | ea, (k, v) :: rest =>
    match findField ea k with
    | none => mergeInto (ea ++ [(k, v)]) rest
    | some ev =>
      match ev, v with
      | .obj eo, .obj tb => mergeInto (setField ea k (deepMerge (.obj eo) (.obj tb))) rest
      | _, _ => mergeInto ea rest
termination_by _ t => sizeOf t

end

/-- The frame property of a filesystem transition in which the only
mutations are directory creations: the set of (path, content) pairs of
regular files is untouched, and every existing path keeps resolving. -/
def mkdirOnly (a b : Entry) : Prop :=
  (∀ p c, Entry.lookup a p = some (.file c) ↔ Entry.lookup b p = some (.file c)) ∧
  (∀ p, (Entry.lookup a p).isSome → (Entry.lookup b p).isSome)

/-! ### Fixtures: concrete template trees exercising the missing file
branch of `renderTemplate` -/

/-- A template holding one regular file `a.txt` (bytes of "hi"), next to
an empty destination directory. -/
def fsTplFile : Entry :=
  .dir [("tpl", .dir [("a.txt", .file [104, 105])]), ("dst", .dir [])]

/-- A template holding one regular file `_foo`, next to an empty
destination directory. -/
def fsTplDot : Entry :=
  .dir [("tpl", .dir [("_foo", .file [110])]), ("dst", .dir [])]

/-- Bytes of the destination's pre-existing manifest, the UTF-8 text of
the JSON document with the single field name: "x". -/
def dstManifestBytes : List Nat :=
  [123, 34, 110, 97, 109, 101, 34, 58, 34, 120, 34, 125]

/-- Bytes of the template's manifest, the UTF-8 text of the JSON
document with the single field version: "1.0.0". -/
def tplManifestBytes : List Nat :=
  [123, 34, 118, 101, 114, 115, 105, 111, 110, 34, 58, 34, 49, 46, 48,
   46, 48, 34, 125]

/-- A template providing `package.json` while the destination already
holds a different `package.json`. -/
def fsManifest : Entry :=
  .dir [("tpl", .dir [("package.json", .file tplManifestBytes)]),
        ("dst", .dir [("package.json", .file dstManifestBytes)])]

/-- A tree whose only content is a `node_modules` directory holding one
leftover file. -/
def fsNModules : Entry := .dir [("node_modules", .dir [("leftover.txt", .file [1])])]

def FsOp.parentPath : FsOp → List String
  | .unlink parent _ => parent
  | .rmdir parent _ => parent

/-- Path `x` lies in the subtree rooted at `q` (`q` itself included). -/
def underDir (q x : List String) : Prop := ∃ r, x = q ++ r

/-- No operation of the list acts inside the subtree rooted at `q`. -/
def noOpsUnder (q : List String) (ops : List FsOp) : Prop :=
  ∀ op ∈ ops, ¬ underDir q (FsOp.parentPath op)

/-- The post-order discipline on an operation trace: once `rmdirSync`
removes a directory, no later operation of the trace acts inside it —
equivalently, everything below a directory is removed before the
directory itself. -/
def childrenBeforeParent (ops : List FsOp) : Prop :=
  ∀ l parent name r, ops = l ++ FsOp.rmdir parent name :: r →
    noOpsUnder (parent ++ [name]) r

/-- A well-formed tree: sibling names are distinct at every level (true
of every real directory tree). -/
inductive Entry.Wf : Entry → Prop where
  | file (c : List Nat) : Entry.Wf (.file c)
  | dir (ch : List (String × Entry)) : (ch.map Prod.fst).Nodup →
      (∀ pr ∈ ch, Entry.Wf pr.2) → Entry.Wf (.dir ch)


/-- A concrete project directory with a nested subdirectory and files. -/
def fsNested : Entry :=
  .dir [("proj", .dir [("sub", .dir [("inner.txt", .file [1])]), ("top.txt", .file [2])]),
        ("other", .file [9])]

/-! ### Path and lookup lemmas -/

theorem lookup_append (e : Entry) (p q : List String) :
    Entry.lookup e (p ++ q) = (Entry.lookup e p).bind (fun x => Entry.lookup x q) := by
  induction p generalizing e with
  | nil => simp [Entry.lookup]
  | cons n rest ih =>
    cases e with
    | file c => simp [Entry.lookup]
    | dir ch =>
      simp only [List.cons_append, Entry.lookup]
      cases findEntry ch n with
      | none => simp
      | some e1 => exact ih e1

/-- C1: the claim says re-reading the destination after `render`
reproduces every non-manifest template file byte-for-byte at its
transformed path.  The code's file branch is empty (contradicting the
function's own doc comment, which promises recursive copying), so the
template file `tpl/a.txt` is never written: after a successful render
the destination holds no `dst/a.txt` at all. -/
theorem renderTemplate_does_not_copy_files :
    renderTemplate 2 ["tpl"] ["dst"] fsTplFile = (fsTplFile, none) ∧
    Entry.lookup fsTplFile ["tpl", "a.txt"] = some (.file [104, 105]) ∧
    Entry.lookup (renderTemplate 2 ["tpl"] ["dst"] fsTplFile).1 ["dst", "a.txt"] = none :=
  ⟨rfl, rfl, rfl⟩

/-- C2: the claim says a source file named `_foo` always yields the
destination name `.foo`.  The code never reaches a rename (its file
branch is empty, against its own doc comment), so after a successful
render the destination holds neither `.foo` nor `_foo`. -/
theorem renderTemplate_does_not_rename_dotfiles :
    renderTemplate 2 ["tpl"] ["dst"] fsTplDot = (fsTplDot, none) ∧
    Entry.lookup (renderTemplate 2 ["tpl"] ["dst"] fsTplDot).1 ["dst", ".foo"] = none ∧
    Entry.lookup (renderTemplate 2 ["tpl"] ["dst"] fsTplDot).1 ["dst", "_foo"] = none :=
  ⟨rfl, rfl, rfl⟩

/-- C3: the claim says rendering onto an existing `package.json` writes
the recursive field merge of the two documents, inserting
template-only keys.  The code performs no write at all (its file branch
is empty, against its own doc comment): the destination manifest's
bytes stay exactly as they were, while the spec's merge of the two
parsed documents differs from the existing document because the
template contributes the key `version`. -/
theorem renderTemplate_does_not_merge_manifest :
    renderTemplate 2 ["tpl"] ["dst"] fsManifest = (fsManifest, none) ∧
    Entry.lookup (renderTemplate 2 ["tpl"] ["dst"] fsManifest).1 ["dst", "package.json"]
      = some (.file dstManifestBytes) ∧
    deepMerge (.obj [("name", .scalar "x")]) (.obj [("version", .scalar "1.0.0")])
      ≠ .obj [("name", .scalar "x")] := by
  refine ⟨rfl, rfl, ?_⟩
  simp [deepMerge, mergeInto, findField]

/-- C5: a source directory whose base name is the reserved
dependency-cache name `node_modules` is skipped entirely: the render
returns with the filesystem unchanged, so when the destination was
absent beforehand, neither it nor anything below it exists afterwards. -/
theorem renderTemplate_skips_node_modules (fuel : Nat) (src dest : List String)
    (fs : Entry) (ch : List (String × Entry))
    (hdir : Entry.lookup fs src = some (.dir ch))
    (hname : src.getLast? = some "node_modules") :
    renderTemplate (fuel + 1) src dest fs = (fs, none) ∧
    (Entry.lookup fs dest = none →
      ∀ q, Entry.lookup (renderTemplate (fuel + 1) src dest fs).1 (dest ++ q) = none) := by
  have h1 : renderTemplate (fuel + 1) src dest fs = (fs, none) := by
    simp [renderTemplate, hdir, hname]
  refine ⟨h1, fun hdest q => ?_⟩
  rw [h1, lookup_append, hdest]
  rfl

/-- Witness for C5 at a concrete input: rendering the `node_modules`
tree into the absent destination `out` changes nothing and leaves every
path below `out` absent. -/
theorem renderTemplate_skips_node_modules_witness :
    renderTemplate 1 ["node_modules"] ["out"] fsNModules = (fsNModules, none) ∧
    (Entry.lookup fsNModules ["out"] = none →
      ∀ q, Entry.lookup (renderTemplate 1 ["node_modules"] ["out"] fsNModules).1
        (["out"] ++ q) = none) :=
  renderTemplate_skips_node_modules 0 ["node_modules"] ["out"] fsNModules
    [("leftover.txt", .file [1])] rfl rfl

/-- C7: `emptyDir` on a path that does not exist returns without any
mutation and without an error (the `existsSync` guard). -/
theorem emptyDir_missing_noop (fs : Entry) (dir : List String)
    (h : Entry.lookup fs dir = none) : emptyDir fs dir = some fs := by
  simp [emptyDir, h]

/-- Witness for C7 at a concrete input. -/
theorem emptyDir_missing_noop_witness :
    emptyDir (Entry.dir [("keep", Entry.file [7])]) ["absent"]
      = some (Entry.dir [("keep", Entry.file [7])]) :=
  emptyDir_missing_noop (Entry.dir [("keep", Entry.file [7])]) ["absent"] rfl

/-- C8: `renderTemplate` on a missing source path fails with the
NotFound condition of `statSync` and commits no mutation: the state it
hands back is the one it was given. -/
theorem renderTemplate_missing_source_enoent (fuel : Nat) (src dest : List String)
    (fs : Entry) (h : Entry.lookup fs src = none) :
    renderTemplate (fuel + 1) src dest fs = (fs, some FsErr.enoent) := by
  simp [renderTemplate, h]

/-- Witness for C8 at a concrete input. -/
theorem renderTemplate_missing_source_enoent_witness :
    renderTemplate 1 ["missing"] ["out"] (Entry.dir []) = (Entry.dir [], some FsErr.enoent) :=
  renderTemplate_missing_source_enoent 0 ["missing"] ["out"] (Entry.dir []) rfl

/-- C4: `canSkipEmptying` classifies the target as safely reusable (no
confirmation required, result `true`) exactly when the path is missing,
or is a directory with zero entries, or is a directory whose single
entry is named `.git`; in every other state it does not classify the
target as reusable. -/
theorem canSkipEmptying_iff_safe (fs : Entry) (dir : List String) :
    canSkipEmptying fs dir = .ok true ↔
      Entry.lookup fs dir = none ∨
      Entry.lookup fs dir = some (.dir []) ∨
      ∃ e, Entry.lookup fs dir = some (.dir [(".git", e)]) := by
  unfold canSkipEmptying
  cases h : Entry.lookup fs dir with
  | none => simp
  | some e =>
    cases e with
    | file c => simp
    | dir ch =>
      match ch with
      | [] => simp
      | [(n, e1)] =>
        by_cases hn : n = ".git" <;> simp [hn]
      | (n1, e1) :: (n2, e2) :: rest => simp

theorem mem_collapseRuns {p : Char → Bool} {r : Char} :
    ∀ {b : Bool} {l : List Char} {c : Char}, c ∈ collapseRuns p r b l → c = r ∨ p c = false := by
  intro b l
  induction l generalizing b with
  | nil => intro c h; simp [collapseRuns] at h
  | cons a rest ih =>
    intro c h
    by_cases ha : p a
    · cases b with
      | true =>
        simp only [collapseRuns, ha, if_true] at h
        exact ih h
      | false =>
        simp only [collapseRuns, ha, if_true] at h
        rcases List.mem_cons.mp h with h1 | h1
        · exact Or.inl h1
        · exact ih h1
    · simp only [collapseRuns, ha, if_neg, Bool.false_eq_true, if_false] at h
      rcases List.mem_cons.mp h with h1 | h1
      · subst h1; exact Or.inr (by simpa using ha)
      · exact ih h1

theorem collapseRuns_id {p : Char → Bool} {r : Char} {l : List Char}
    (h : ∀ c ∈ l, p c = false) : collapseRuns p r false l = l := by
  induction l with
  | nil => rfl
  | cons a rest ih =>
    have ha : p a = false := h a (List.mem_cons_self a rest)
    simp only [collapseRuns, ha, Bool.false_eq_true, if_false]
    exact congrArg (a :: ·) (ih (fun c hc => h c (List.mem_cons_of_mem a hc)))

theorem dropWhile_id {q : Char → Bool} {l : List Char}
    (h : ∀ c ∈ l, q c = false) : l.dropWhile q = l := by
  cases l with
  | nil => rfl
  | cons a rest =>
    have := h a (List.mem_cons_self a rest)
    simp [List.dropWhile_cons, this]

theorem pkg_not_space {c : Char} (h : pkgNameChar c = true) : jsWhitespace c = false := by
  simp only [pkgNameChar, Bool.or_eq_true, Bool.and_eq_true, decide_eq_true_eq] at h
  simp only [jsWhitespace, Bool.or_eq_false_iff, Bool.and_eq_false_iff, decide_eq_false_iff_not]
  omega

theorem pkg_toLower {c : Char} (h : pkgNameChar c = true) : Char.toLower c = c := by
  simp only [pkgNameChar, Bool.or_eq_true, Bool.and_eq_true, decide_eq_true_eq] at h
  unfold Char.toLower
  rw [if_neg]
  omega

theorem pkg_not_dot_underscore {c : Char} (h : pkgNameChar c = true) :
    (c.toNat = 46 || c.toNat = 95) = false := by
  simp only [pkgNameChar, Bool.or_eq_true, Bool.and_eq_true, decide_eq_true_eq] at h
  simp only [Bool.or_eq_false_iff, decide_eq_false_iff_not]
  omega

theorem jsToLowerCase_id {l : List Char} (h : ∀ c ∈ l, pkgNameChar c = true) :
    jsToLowerCase l = l := by
  unfold jsToLowerCase
  induction l with
  | nil => rfl
  | cons a rest ih =>
    simp only [List.map_cons]
    rw [pkg_toLower (h a (List.mem_cons_self a rest)), ih (fun c hc => h c (List.mem_cons_of_mem a hc))]

theorem mem_toValidPackageName {s : List Char} :
    ∀ c ∈ toValidPackageName s, pkgNameChar c = true := by
  intro c hc
  unfold toValidPackageName at hc
  rcases mem_collapseRuns hc with h1 | h1
  · subst h1; decide
  · simpa using h1

/-- C10: `toValidPackageName` is idempotent: applying it twice gives
the same result as applying it once, because its output consists only
of characters of the class `[a-z0-9-~]`, on which every stage of the
pipeline is the identity. -/
theorem toValidPackageName_idem (s : List Char) :
    toValidPackageName (toValidPackageName s) = toValidPackageName s := by
  have hmem := @mem_toValidPackageName s
  set out := toValidPackageName s with hout
  have hspace : ∀ c ∈ out, jsWhitespace c = false := fun c hc => pkg_not_space (hmem c hc)
  have htrim : jsTrim out = out := by
    unfold jsTrim
    rw [dropWhile_id hspace]
    rw [dropWhile_id (fun c hc => hspace c (List.mem_reverse.mp hc))]
    exact List.reverse_reverse out
  conv_lhs => unfold toValidPackageName
  rw [htrim, jsToLowerCase_id hmem,
      collapseRuns_id hspace]
  have hstrip : stripLeadingDotUnderscore out = out := by
    cases h : out with
    | nil => rfl
    | cons a rest =>
      have ha : pkgNameChar a = true := hmem a (h ▸ List.mem_cons_self a rest)
      simp [stripLeadingDotUnderscore, pkg_not_dot_underscore ha]
  rw [hstrip, collapseRuns_id (fun c hc => by simp [hmem c hc])]


theorem findEntry_setFirst_self {ch : List (String × Entry)} {n : String} {e : Entry}
    (h : findEntry ch n = some e) (x : Entry) :
    findEntry (setFirst ch n x) n = some x := by
  induction ch with
  | nil => simp [findEntry] at h
  | cons a rest ih =>
    obtain ⟨m, e1⟩ := a
    by_cases hm : m = n
    · subst hm; simp [findEntry, setFirst]
    · simp only [findEntry, setFirst, if_neg hm] at h ⊢
      exact ih h

theorem findEntry_setFirst_ne {ch : List (String × Entry)} {n m : String} (hmn : m ≠ n)
    (x : Entry) : findEntry (setFirst ch n x) m = findEntry ch m := by
  induction ch with
  | nil => simp [findEntry, setFirst]
  | cons a rest ih =>
    obtain ⟨k, e1⟩ := a
    by_cases hk : k = n
    · subst hk
      simp only [setFirst, if_pos rfl, findEntry, if_neg (Ne.symm hmn)]
    · simp only [setFirst, if_neg hk, findEntry]
      by_cases hkm : k = m
      · simp [hkm]
      · simp only [if_neg hkm]
        exact ih

theorem findEntry_append (l1 l2 : List (String × Entry)) (m : String) :
    findEntry (l1 ++ l2) m =
      match findEntry l1 m with
      | some e => some e
      | none => findEntry l2 m := by
  induction l1 with
  | nil => simp [findEntry]
  | cons a rest ih =>
    obtain ⟨k, e1⟩ := a
    by_cases hk : k = m <;> simp [findEntry, hk, ih]

theorem dirEmpty_no_file (p : List String) (c : List Nat) :
    Entry.lookup (Entry.dir []) p ≠ some (Entry.file c) := by
  cases p <;> simp [Entry.lookup, findEntry]

theorem mkdirOnly_refl (e : Entry) : mkdirOnly e e :=
  ⟨fun _ _ => Iff.rfl, fun _ h => h⟩

theorem mkdirOnly_trans {a b c : Entry} (h1 : mkdirOnly a b) (h2 : mkdirOnly b c) :
    mkdirOnly a c :=
  ⟨fun p cc => (h1.1 p cc).trans (h2.1 p cc), fun p h => h2.2 p (h1.2 p h)⟩

theorem mkdirp_mkdirOnly :
    ∀ (path : List String) (e e' : Entry), Entry.mkdirp e path = some e' → mkdirOnly e e' := by
  intro path
  induction path with
  | nil =>
    intro e e' h
    cases e with
    | file c => simp [Entry.mkdirp] at h
    | dir ch =>
      simp only [Entry.mkdirp, Option.some.injEq] at h
      exact h ▸ mkdirOnly_refl _
  | cons n rest ih =>
    intro e e' h
    cases e with
    | file c => simp [Entry.mkdirp] at h
    | dir ch =>
      simp only [Entry.mkdirp] at h
      cases hf : findEntry ch n with
      | some e1 =>
        rw [hf] at h
        simp only [Option.map_eq_some'] at h
        obtain ⟨e1', h1, rfl⟩ := h
        have hIH := ih e1 e1' h1
        constructor
        · intro p c
          cases p with
          | nil => simp [Entry.lookup]
          | cons m ps =>
            by_cases hm : m = n
            · subst hm
              simp only [Entry.lookup, hf, findEntry_setFirst_self hf e1']
              exact hIH.1 ps c
            · simp only [Entry.lookup, findEntry_setFirst_ne hm e1']
        · intro p hp
          cases p with
          | nil => simp [Entry.lookup]
          | cons m ps =>
            by_cases hm : m = n
            · subst hm
              simp only [Entry.lookup, hf, findEntry_setFirst_self hf e1'] at hp ⊢
              exact hIH.2 ps hp
            · simpa only [Entry.lookup, findEntry_setFirst_ne hm e1'] using hp
      | none =>
        rw [hf] at h
        simp only [Option.map_eq_some'] at h
        obtain ⟨e0, h0, rfl⟩ := h
        have hIH := ih (Entry.dir []) e0 h0
        constructor
        · intro p c
          cases p with
          | nil => simp [Entry.lookup]
          | cons m ps =>
            simp only [Entry.lookup, findEntry_append]
            cases hm : findEntry ch m with
            | some e2 => simp
            | none =>
              simp only [findEntry]
              by_cases hnm : n = m
              · subst hnm
                simp only [if_pos rfl]
                constructor
                · intro hc; exact absurd hc (by simp)
                · intro hc
                  exact absurd ((hIH.1 ps c).mpr hc) (dirEmpty_no_file ps c)
              · simp [if_neg hnm]
        · intro p hp
          cases p with
          | nil => simp [Entry.lookup]
          | cons m ps =>
            simp only [Entry.lookup, findEntry_append] at hp ⊢
            cases hm : findEntry ch m with
            | some e2 => rw [hm] at hp; simpa using hp
            | none => rw [hm] at hp; simp at hp


theorem renderChildren_mkdirOnly
    (step : List String → List String → Entry → Entry × Option FsErr)
    (hstep : ∀ src dest fs, mkdirOnly fs (step src dest fs).1) :
    ∀ names src dest fs, mkdirOnly fs (renderChildren step src dest names fs).1 := by
  intro names
  induction names with
  | nil => intro src dest fs; exact mkdirOnly_refl fs
  | cons name rest ih =>
    intro src dest fs
    simp only [renderChildren]
    cases hs : step (src ++ [name]) (dest ++ [name]) fs with
    | mk fs1 err =>
      have h1 : mkdirOnly fs fs1 := by
        have h2 := hstep (src ++ [name]) (dest ++ [name]) fs
        rwa [hs] at h2
      cases err with
      | none => exact mkdirOnly_trans h1 (ih src dest fs1)
      | some e => exact h1

theorem renderTemplate_mkdirOnly :
    ∀ fuel src dest fs, mkdirOnly fs (renderTemplate fuel src dest fs).1 := by
  intro fuel
  induction fuel with
  | zero => intro src dest fs; exact mkdirOnly_refl fs
  | succ f ih =>
    intro src dest fs
    simp only [renderTemplate]
    cases hl : Entry.lookup fs src with
    | none => exact mkdirOnly_refl fs
    | some e =>
      cases e with
      | file c => exact mkdirOnly_refl fs
      | dir children =>
        by_cases hnm : src.getLast? = some "node_modules"
        · simp only [if_pos hnm]; exact mkdirOnly_refl fs
        · simp only [if_neg hnm]
          cases hmk : Entry.mkdirp fs dest with
          | none => exact mkdirOnly_refl fs
          | some fs1 =>
            exact mkdirOnly_trans (mkdirp_mkdirOnly dest fs fs1 hmk)
              (renderChildren_mkdirOnly (renderTemplate f) ih
                (children.map Prod.fst) src dest fs1)

/-- C9: across every invocation (any fuel, any paths, any tree,
whether it succeeds or raises), the only filesystem mutations
`renderTemplate` performs are directory creations — the set of regular
files with their contents is untouched and no existing path stops
resolving — and when the source path is a regular file the filesystem
is returned entirely unchanged with no error. -/
theorem renderTemplate_only_creates_dirs :
    (∀ fuel src dest fs, mkdirOnly fs (renderTemplate fuel src dest fs).1) ∧
    (∀ fuel src dest fs c, Entry.lookup fs src = some (Entry.file c) →
      renderTemplate (fuel + 1) src dest fs = (fs, none)) := by
  refine ⟨renderTemplate_mkdirOnly, ?_⟩
  intro fuel src dest fs c h
  simp [renderTemplate, h]


theorem setFirst_self {ch : List (String × Entry)} {n : String} {e : Entry}
    (h : findEntry ch n = some e) : setFirst ch n e = ch := by
  induction ch with
  | nil => rfl
  | cons a rest ih =>
    obtain ⟨k, e1⟩ := a
    by_cases hk : k = n
    · subst hk
      have h' : e1 = e := by simpa [findEntry] using h
      subst h'
      simp [setFirst]
    · simp only [findEntry, if_neg hk] at h
      simp [setFirst, hk, ih h]

theorem setAt_self : ∀ (p : List String) (e x : Entry),
    Entry.lookup e p = some x → Entry.setAt e p x = some e := by
  intro p
  induction p with
  | nil =>
    intro e x h
    simp only [Entry.lookup, Option.some.injEq] at h
    simp [Entry.setAt, h]
  | cons n rest ih =>
    intro e x h
    cases e with
    | file c => simp [Entry.lookup] at h
    | dir ch =>
      simp only [Entry.lookup] at h
      cases hf : findEntry ch n with
      | none => rw [hf] at h; simp at h
      | some e1 =>
        rw [hf] at h
        simp only [Entry.setAt, hf, ih e1 x h, Option.map_some']
        rw [setFirst_self hf]

theorem lookup_setAt : ∀ (p : List String) (e x e' : Entry),
    Entry.setAt e p x = some e' → Entry.lookup e' p = some x := by
  intro p
  induction p with
  | nil =>
    intro e x e' h
    simp only [Entry.setAt, Option.some.injEq] at h
    simp [Entry.lookup, h]
  | cons n rest ih =>
    intro e x e' h
    cases e with
    | file c => simp [Entry.setAt] at h
    | dir ch =>
      simp only [Entry.setAt] at h
      cases hf : findEntry ch n with
      | none => rw [hf] at h; simp at h
      | some e1 =>
        rw [hf] at h
        simp only [Option.map_eq_some'] at h
        obtain ⟨e1', h1, rfl⟩ := h
        simp only [Entry.lookup, findEntry_setFirst_self hf e1']
        exact ih e1 x e1' h1

theorem setAt_setAt : ∀ (p : List String) (e x y e1 : Entry),
    Entry.setAt e p x = some e1 → Entry.setAt e1 p y = Entry.setAt e p y := by
  intro p
  induction p with
  | nil => intro e x y e1 h; simp [Entry.setAt]
  | cons n rest ih =>
    intro e x y e1 h
    cases e with
    | file c => simp [Entry.setAt] at h
    | dir ch =>
      simp only [Entry.setAt] at h
      cases hf : findEntry ch n with
      | none => rw [hf] at h; simp at h
      | some e2 =>
        rw [hf] at h
        simp only [Option.map_eq_some'] at h
        obtain ⟨e2', h2, rfl⟩ := h
        simp only [Entry.setAt, findEntry_setFirst_self hf e2', hf, ih e2 x y e2' h2]
        cases Entry.setAt e2 rest y with
        | none => rfl
        | some z =>
          simp only [Option.map_some', Option.some.injEq, Entry.dir.injEq]
          -- setFirst (setFirst ch n e2') n z = setFirst ch n z
          clear h2 ih hf
          induction ch with
          | nil => rfl
          | cons a rest2 ih2 =>
            obtain ⟨k, e3⟩ := a
            by_cases hk : k = n
            · subst hk; simp [setFirst]
            · simp [setFirst, hk, ih2]

theorem modifyChildren_eq_setAt : ∀ (p : List String) (e : Entry)
    (ch ch' : List (String × Entry))
    (f : List (String × Entry) → Option (List (String × Entry))),
    Entry.lookup e p = some (.dir ch) → f ch = some ch' →
    ∃ e', Entry.modifyChildren e p f = some e' ∧ Entry.setAt e p (.dir ch') = some e' := by
  intro p
  induction p with
  | nil =>
    intro e ch ch' f hl hf
    simp only [Entry.lookup, Option.some.injEq] at hl
    subst hl
    exact ⟨.dir ch', by simp [Entry.modifyChildren, hf], rfl⟩
  | cons n rest ih =>
    intro e ch ch' f hl hf
    cases e with
    | file c => simp [Entry.lookup] at hl
    | dir ch0 =>
      simp only [Entry.lookup] at hl
      cases hfe : findEntry ch0 n with
      | none => rw [hfe] at hl; simp at hl
      | some e1 =>
        rw [hfe] at hl
        obtain ⟨e1', h1, h2⟩ := ih e1 ch ch' f hl hf
        refine ⟨.dir (setFirst ch0 n e1'), ?_, ?_⟩
        · simp [Entry.modifyChildren, hfe, h1]
        · simp [Entry.setAt, hfe, h2]

theorem applyOps_append : ∀ (l m : List FsOp) (e : Entry),
    applyOps e (l ++ m) =
      match applyOps e l with
      | none => none
      | some e1 => applyOps e1 m := by
  intro l
  induction l with
  | nil => intro m e; rfl
  | cons op rest ih =>
    intro m e
    simp only [List.cons_append, applyOps]
    cases applyOp e op with
    | none => rfl
    | some e1 => exact ih m e1


theorem setAt_snoc : ∀ (p : List String) (e : Entry) (ch : List (String × Entry))
    (n : String) (e0 x : Entry),
    Entry.lookup e p = some (.dir ch) → findEntry ch n = some e0 →
    Entry.setAt e (p ++ [n]) x = Entry.setAt e p (.dir (setFirst ch n x)) := by
  intro p
  induction p with
  | nil =>
    intro e ch n e0 x hl hf
    simp only [Entry.lookup, Option.some.injEq] at hl
    subst hl
    simp [Entry.setAt, hf]
  | cons m rest ih =>
    intro e ch n e0 x hl hf
    cases e with
    | file c => simp [Entry.lookup] at hl
    | dir ch0 =>
      simp only [Entry.lookup] at hl
      cases hfe : findEntry ch0 m with
      | none => rw [hfe] at hl; simp at hl
      | some e1 =>
        rw [hfe] at hl
        simp only [List.cons_append, Entry.setAt, hfe]
        exact congrArg (Option.map _) (ih e1 ch n e0 x hl hf)

theorem postOrder_applies : ∀ (p : List String) (ch : List (String × Entry)),
    ∀ e : Entry, Entry.lookup e p = some (.dir ch) →
    ∃ e', applyOps e (postOrderOps p ch) = some e' ∧ Entry.setAt e p (.dir []) = some e' := by
  intro p ch
  induction p, ch using postOrderOps.induct with
  | case1 p =>
    intro e h
    exact ⟨e, by simp [postOrderOps, applyOps], setAt_self p e _ h⟩
  | case2 p n c rest ih =>
    intro e h
    have hf : (fun ch0 => match findEntry ch0 n with
        | some (.file _) => some (removeFirst ch0 n)
        | _ => none) ((n, Entry.file c) :: rest) = some rest := by
      simp [findEntry, removeFirst]
    obtain ⟨e1, hm, hs⟩ := modifyChildren_eq_setAt p e ((n, Entry.file c) :: rest) rest
      (fun ch0 => match findEntry ch0 n with
        | some (.file _) => some (removeFirst ch0 n)
        | _ => none) h hf
    have hl1 : Entry.lookup e1 p = some (.dir rest) := lookup_setAt p e _ e1 hs
    obtain ⟨e2, hA, hB⟩ := ih e1 hl1
    refine ⟨e2, ?_, ?_⟩
    · simp only [postOrderOps, applyOps, applyOp, hm]
      exact hA
    · rw [← setAt_setAt p e (.dir rest) (.dir []) e1 hs]
      exact hB
  | case3 p n ch2 rest ih1 ih2 =>
    intro e h
    have hsub : Entry.lookup e (p ++ [n]) = some (.dir ch2) := by
      rw [lookup_append, h]
      simp [Entry.lookup, findEntry]
    obtain ⟨e1, hA1, hB1⟩ := ih1 e hsub
    have hsnoc := setAt_snoc p e ((n, Entry.dir ch2) :: rest) n (Entry.dir ch2) (Entry.dir [])
      h (by simp [findEntry])
    rw [hsnoc] at hB1
    have hsetFirst : setFirst ((n, Entry.dir ch2) :: rest) n (Entry.dir []) =
        (n, Entry.dir []) :: rest := by simp [setFirst]
    rw [hsetFirst] at hB1
    have hl1 : Entry.lookup e1 p = some (.dir ((n, Entry.dir []) :: rest)) :=
      lookup_setAt p e _ e1 hB1
    have hf2 : (fun ch0 => match findEntry ch0 n with
        | some (.dir []) => some (removeFirst ch0 n)
        | _ => none) ((n, Entry.dir []) :: rest) = some rest := by
      simp [findEntry, removeFirst]
    obtain ⟨e2, hm2, hs2⟩ := modifyChildren_eq_setAt p e1 ((n, Entry.dir []) :: rest) rest
      (fun ch0 => match findEntry ch0 n with
        | some (.dir []) => some (removeFirst ch0 n)
        | _ => none) hl1 hf2
    have hl2 : Entry.lookup e2 p = some (.dir rest) := lookup_setAt p e1 _ e2 hs2
    obtain ⟨e3, hA3, hB3⟩ := ih2 e2 hl2
    refine ⟨e3, ?_, ?_⟩
    · simp only [postOrderOps]
      rw [applyOps_append, applyOps_append, hA1]
      simp only [applyOps, applyOp, hm2]
      exact hA3
    · rw [← setAt_setAt p e (.dir ((n, Entry.dir []) :: rest)) (.dir []) e1 hB1,
          ← setAt_setAt p e1 (.dir rest) (.dir []) e2 hs2]
      exact hB3


theorem underDir_self (p : List String) : underDir p p := ⟨[], (List.append_nil p).symm⟩

theorem underDir_trans {a b c : List String} (h1 : underDir a b) (h2 : underDir b c) :
    underDir a c := by
  obtain ⟨r, rfl⟩ := h1
  obtain ⟨s, rfl⟩ := h2
  exact ⟨r ++ s, List.append_assoc a r s⟩

theorem underDir_length {a b : List String} (h : underDir a b) : a.length ≤ b.length := by
  obtain ⟨r, rfl⟩ := h
  simp

theorem not_underDir_of_longer {a b : List String} (h : b.length < a.length) :
    ¬ underDir a b :=
  fun hu => absurd (underDir_length hu) (by omega)

theorem underDir_branch_ne {p : List String} {n n' : String} (hne : n ≠ n')
    {x : List String} (h1 : underDir (p ++ [n]) x) (h2 : underDir (p ++ [n']) x) : False := by
  obtain ⟨r, rfl⟩ := h1
  obtain ⟨r', he⟩ := h2
  rw [List.append_assoc, List.append_assoc] at he
  have h3 : [n] ++ r = [n'] ++ r' := List.append_cancel_left he
  simp only [List.cons_append, List.nil_append, List.cons.injEq] at h3
  exact hne h3.1

theorem cbp_nil : childrenBeforeParent [] := by
  intro l parent name r h
  exact absurd h (by simp)

theorem cbp_cons {op : FsOp} {ops : List FsOp}
    (h1 : ∀ q m, op = FsOp.rmdir q m → noOpsUnder (q ++ [m]) ops)
    (h2 : childrenBeforeParent ops) : childrenBeforeParent (op :: ops) := by
  intro l parent name r hsplit
  cases l with
  | nil =>
    simp only [List.nil_append, List.cons.injEq] at hsplit
    exact hsplit.2 ▸ h1 parent name hsplit.1
  | cons x l' =>
    simp only [List.cons_append, List.cons.injEq] at hsplit
    exact h2 l' parent name r hsplit.2

theorem cbp_tail {op : FsOp} {ops : List FsOp} (h : childrenBeforeParent (op :: ops)) :
    childrenBeforeParent ops := by
  intro l parent name r hsplit
  exact h (op :: l) parent name r (by simp [hsplit])

theorem cbp_append {A B : List FsOp} (hA : childrenBeforeParent A)
    (hB : childrenBeforeParent B)
    (hAB : ∀ q m, FsOp.rmdir q m ∈ A → noOpsUnder (q ++ [m]) B) :
    childrenBeforeParent (A ++ B) := by
  induction A with
  | nil => simpa using hB
  | cons op A' ih =>
    have hA' : childrenBeforeParent A' := cbp_tail hA
    have ihA := ih hA' (fun q m hm => hAB q m (List.mem_cons_of_mem op hm))
    refine cbp_cons ?_ ihA
    intro q m hop
    subst hop
    have hx1 : noOpsUnder (q ++ [m]) A' := hA [] q m A' rfl
    have hx2 : noOpsUnder (q ++ [m]) B := hAB q m (List.mem_cons_self _ _)
    intro op2 hmem
    rcases List.mem_append.mp hmem with hmm | hmm
    · exact hx1 op2 hmm
    · exact hx2 op2 hmm

theorem postOrderOps_shape : ∀ (p : List String) (ch : List (String × Entry)) (op : FsOp),
    op ∈ postOrderOps p ch →
    FsOp.parentPath op = p ∨
      ∃ n' ∈ ch.map Prod.fst, underDir (p ++ [n']) (FsOp.parentPath op) := by
  intro p ch
  induction p, ch using postOrderOps.induct with
  | case1 p => intro op h; simp [postOrderOps] at h
  | case2 p n c rest ih =>
    intro op h
    simp only [postOrderOps, List.mem_cons] at h
    rcases h with rfl | h
    · exact Or.inl rfl
    · rcases ih op h with h1 | ⟨n', hn', h2⟩
      · exact Or.inl h1
      · exact Or.inr ⟨n', by simp only [List.map_cons]; exact List.mem_cons_of_mem _ hn', h2⟩
  | case3 p n ch2 rest ih1 ih2 =>
    intro op h
    have h0 : postOrderOps p ((n, Entry.dir ch2) :: rest) =
        postOrderOps (p ++ [n]) ch2 ++ (FsOp.rmdir p n :: postOrderOps p rest) := by
      simp [postOrderOps]
    rw [h0] at h
    have hn : n ∈ ((n, Entry.dir ch2) :: rest).map Prod.fst := by simp
    rcases List.mem_append.mp h with h | h
    · rcases ih1 op h with h1 | ⟨n', _, h2⟩
      · exact Or.inr ⟨n, hn, h1 ▸ underDir_self _⟩
      · exact Or.inr ⟨n, hn, underDir_trans ⟨[n'], rfl⟩ h2⟩
    · rcases List.mem_cons.mp h with rfl | h
      · exact Or.inl rfl
      · rcases ih2 op h with h1 | ⟨n', hn', h2⟩
        · exact Or.inl h1
        · exact Or.inr ⟨n', by simp only [List.map_cons]; exact List.mem_cons_of_mem _ hn', h2⟩

theorem wf_parts {n : String} {e : Entry} {rest : List (String × Entry)}
    (h : Entry.Wf (.dir ((n, e) :: rest))) :
    Entry.Wf e ∧ Entry.Wf (.dir rest) ∧ n ∉ rest.map Prod.fst := by
  cases h with
  | dir _ hnodup hmem =>
    simp only [List.map_cons, List.nodup_cons] at hnodup
    exact ⟨hmem (n, e) (List.mem_cons_self _ _),
      Entry.Wf.dir rest hnodup.2 (fun pr hpr => hmem pr (List.mem_cons_of_mem _ hpr)),
      hnodup.1⟩

theorem postOrderOps_cbp : ∀ (p : List String) (ch : List (String × Entry)),
    Entry.Wf (.dir ch) → childrenBeforeParent (postOrderOps p ch) := by
  intro p ch
  induction p, ch using postOrderOps.induct with
  | case1 p =>
    intro _
    have h0 : postOrderOps p [] = [] := by simp [postOrderOps]
    rw [h0]
    exact cbp_nil
  | case2 p n c rest ih =>
    intro hwf
    obtain ⟨_, hwfr, _⟩ := wf_parts hwf
    have h0 : postOrderOps p ((n, Entry.file c) :: rest) =
        FsOp.unlink p n :: postOrderOps p rest := by simp [postOrderOps]
    rw [h0]
    refine cbp_cons ?_ (ih hwfr)
    intro q m hop
    cases hop
  | case3 p n ch2 rest ih1 ih2 =>
    intro hwf
    obtain ⟨hwf2, hwfr, hnn⟩ := wf_parts hwf
    have h0 : postOrderOps p ((n, Entry.dir ch2) :: rest) =
        postOrderOps (p ++ [n]) ch2 ++ (FsOp.rmdir p n :: postOrderOps p rest) := by
      simp [postOrderOps]
    rw [h0]
    refine cbp_append (ih1 hwf2) ?_ ?_
    · refine cbp_cons ?_ (ih2 hwfr)
      intro q m hop
      obtain ⟨rfl, rfl⟩ : q = p ∧ m = n := by
        injection hop with h1 h2
        exact ⟨h1.symm, h2.symm⟩
      intro op hmemB hunder
      rcases postOrderOps_shape q rest op hmemB with hp | ⟨n', hn', hu⟩
      · rw [hp] at hunder
        exact not_underDir_of_longer (by simp) hunder
      · have hne : m ≠ n' := fun he => hnn (he ▸ hn')
        exact underDir_branch_ne hne hunder hu
    · intro q m hmemA
      have hq : underDir (p ++ [n]) q := by
        rcases postOrderOps_shape (p ++ [n]) ch2 (FsOp.rmdir q m) hmemA with h1 | ⟨n', _, h2⟩
        · exact h1 ▸ underDir_self _
        · exact underDir_trans ⟨[n'], rfl⟩ h2
      intro op hop hunder
      have hPN : underDir (p ++ [n]) (FsOp.parentPath op) := by
        refine underDir_trans ?_ hunder
        obtain ⟨r, rfl⟩ := hq
        exact ⟨r ++ [m], by simp⟩
      have hlen : (p ++ [n]).length ≤ q.length := underDir_length hq
      rcases List.mem_cons.mp hop with rfl | hopB
      · simp only [FsOp.parentPath] at hPN
        exact not_underDir_of_longer (by simp) hPN
      · rcases postOrderOps_shape p rest op hopB with h1 | ⟨n', hn', hu⟩
        · rw [h1] at hPN
          exact not_underDir_of_longer (by simp) hPN
        · have hne : n ≠ n' := fun he => hnn (he ▸ hn')
          exact underDir_branch_ne hne hPN hu


/-- C6: `emptyDir` on an existing directory (nested subdirectories
included) succeeds — in a model whose `rmdirSync` is rejected by the
storage layer unless the directory is already empty, so success itself
certifies that every child was removed before its parent — and leaves
the path resolving to a directory whose listing is empty.  In addition,
for any well-formed tree the emitted operation trace satisfies the
post-order discipline explicitly: after a directory's `rmdir`, no later
operation acts inside it. -/
theorem emptyDir_empties (fs : Entry) (dir : List String) (ch : List (String × Entry))
    (h : Entry.lookup fs dir = some (.dir ch)) :
    (∃ fs', emptyDir fs dir = some fs' ∧ Entry.lookup fs' dir = some (.dir [])) ∧
    (Entry.Wf (.dir ch) → childrenBeforeParent (postOrderOps [] ch)) := by
  constructor
  · obtain ⟨e', hA, hB⟩ := postOrder_applies [] ch (.dir ch) rfl
    have he' : e' = .dir [] := by
      simp only [Entry.setAt, Option.some.injEq] at hB
      exact hB.symm
    subst he'
    obtain ⟨fs', _, hs⟩ := modifyChildren_eq_setAt dir fs ch [] (fun _ => some []) h rfl
    refine ⟨fs', ?_, lookup_setAt dir fs _ fs' hs⟩
    simp [emptyDir, h, hA, hs]
  · exact postOrderOps_cbp [] ch

/-- Witness for C6 at a concrete input: a project directory holding a
nested subdirectory with a file, plus a top-level file. -/
theorem emptyDir_empties_witness :
    (∃ fs', emptyDir fsNested ["proj"] = some fs' ∧
      Entry.lookup fs' ["proj"] = some (.dir [])) ∧
    (Entry.Wf (.dir [("sub", .dir [("inner.txt", .file [1])]), ("top.txt", .file [2])]) →
      childrenBeforeParent
        (postOrderOps [] [("sub", .dir [("inner.txt", .file [1])]), ("top.txt", .file [2])])) :=
  emptyDir_empties fsNested ["proj"]
    [("sub", .dir [("inner.txt", .file [1])]), ("top.txt", .file [2])] rfl

end CompoKit
